import Mathlib

/-!
Verification of the sample_handler numeric pipeline.

The Python source (sample_handler.py) is embedded shallowly:

* Python strings are embedded as List Char; Python lists as Lean lists.
* Python big integers are embedded as Int; float accumulation in
  reduce_samplerate is exact on integer inputs, so it is embedded as Int,
  and int(x / r) (true division then truncation toward zero) is embedded
  as Int.tdiv.
* Fallible code (ZeroDivisionError, IndexError, ValueError) is embedded
  in the Option monad, none standing for a raised exception.
* The test i % ratio == 0 agrees between Python's modulo and Int.emod for
  every nonzero ratio, since both sides are zero exactly when ratio
  divides i; ratio == 0 raises ZeroDivisionError in Python and is mapped
  to none in the embedding.
-/

/-- Python abs on integers. -/
def pyAbs (x : Int) : Int := if x < 0 then -x else x

/-- Characters removed by Python str.strip with no arguments (the
whitespace characters that occur in header files). -/
def pySpace (c : Char) : Bool :=
  c = ' ' || c = '\t' || c = '\n' || c = '\r'

/-- Python str.strip(): remove leading and trailing whitespace. -/
def pyStrip (s : List Char) : List Char :=
  ((s.dropWhile pySpace).reverse.dropWhile pySpace).reverse

/-- Python str.split(sep) for a one-character separator: always returns
at least one piece; adjacent separators produce empty pieces. -/
def splitOnChar (sep : Char) : List Char → List (List Char)
  | [] => [[]]
  | c :: cs =>
    if c = sep then [] :: splitOnChar sep cs
    else
      match splitOnChar sep cs with
      | t :: ts => (c :: t) :: ts
      | [] => [[c]]

/-- Value of one character as a digit in the given base, as Python int()
accepts it: 0-9, a-f and A-F, subject to being below the base. -/
def digitVal (b : Nat) (c : Char) : Option Nat :=
  let v : Option Nat :=
    if '0' ≤ c ∧ c ≤ '9' then some (c.toNat - '0'.toNat)
    else if 'a' ≤ c ∧ c ≤ 'f' then some (c.toNat - 'a'.toNat + 10)
    else if 'A' ≤ c ∧ c ≤ 'F' then some (c.toNat - 'A'.toNat + 10)
    else none
  v.bind (fun d => if d < b then some d else none)

/-- Accumulate a digit string left to right in the given base. -/
def parseDigits (b : Nat) (s : List Char) : Option Nat :=
  s.foldlM (fun acc c => (digitVal b c).map (fun d => acc * b + d)) 0

/-- Python int() with base 16 accepts an optional 0x or 0X prefix. -/
def stripHexPre : List Char → List Char
  | '0' :: c :: rest => if c = 'x' ∨ c = 'X' then rest else '0' :: c :: rest
  | s => s

/-- At least one digit is required by Python int; an empty digit string
raises ValueError. -/
def pyParseNat (b : Nat) : List Char → Option Nat
  | [] => none
  | s => parseDigits b s

/-- Digits of a Python int literal after sign removal: for base 16 an
optional 0x prefix is allowed first. -/
def pyParseNatTok (b : Nat) (s : List Char) : Option Nat :=
  pyParseNat b (if b = 16 then stripHexPre s else s)

/-- Python int(token, base) on a numeric token: surrounding whitespace is
stripped, an optional sign is accepted, then base digits; anything else
raises ValueError, embedded as none.  (Underscore digit grouping, which
never occurs in the header files at hand, is not modelled.) -/
def pyInt (b : Nat) (s : List Char) : Option Int :=
  match pyStrip s with
  | '+' :: rest => (pyParseNatTok b rest).map (fun n => (n : Int))
  | '-' :: rest => (pyParseNatTok b rest).map (fun n => -(n : Int))
  | rest => (pyParseNatTok b rest).map (fun n => (n : Int))

/-- Python bitwise complement on integers: the tilde operator, -x - 1. -/
def pyNot (x : Int) : Int := -x - 1

/-- The per-token accumulation loop of the list comprehensions in
Filereader.__process_line: parse the tokens left to right, appending each
value; a raised ValueError (none) propagates. -/
def collectInts (f : List Char → Option Int) : List (List Char) → Option (List Int)
  | [] => some []
  | t :: ts => (f t).bind (fun v => (collectInts f ts).map (fun vs => v :: vs))

/-- Spec-side renderer: the character of one digit value, lowercase for
the hex digits, as Python str and hex produce them. -/
def digitChar (d : Nat) : Char :=
  if d < 10 then Char.ofNat (48 + d) else Char.ofNat (87 + d)

/-- Spec-side renderer: a natural number written in the given base, most
significant digit first, with 0 written as the single digit 0. -/
def natToChars (b n : Nat) : List Char :=
  if n = 0 then ['0'] else (Nat.digits b n).reverse.map digitChar

/-- Spec-side renderer: join tokens with comma separators. -/
def joinComma : List (List Char) → List Char
  | [] => []
  | [t] => t
  | t :: ts => t ++ ',' :: joinComma ts

/-- Spec-side renderer: a data line holding the numeric sequence in
decimal-literal form. -/
def decLine (ns : List Nat) : List Char :=
  joinComma (ns.map (natToChars 10))

/-- Spec-side renderer: the same numeric sequence in hex-literal form. -/
def hexLine (ns : List Nat) : List Char :=
  joinComma (ns.map (fun n => '0' :: 'x' :: natToChars 16 n))

namespace Filereader

/-- The digits 1 through 9: the tuple the decimal branch of
Filereader.__process_line passes to startswith. -/
def startDigits : List Char := ['1', '2', '3', '4', '5', '6', '7', '8', '9']

/-- Filereader.__process_line: strip the line, split on commas, drop the
final piece if it is empty; then read items[0], which raises IndexError
(none) when the item list has become empty; parse all tokens as base 16
if the first starts with 0x, as base 10 if it starts with a digit 1-9,
and otherwise contribute no values. -/
def process_line (line : List Char) : Option (List Int) :=
  let stripped := pyStrip line
  let items0 := splitOnChar ',' stripped
  let items := if items0.getLast? = some [] then items0.dropLast else items0
  match items with
  | [] => none
  | first :: _ =>
    if ['0', 'x'].isPrefixOf first then
      collectInts (pyInt 16) items
    else if (match first with | c :: _ => decide (c ∈ startDigits) | [] => false) then
      collectInts (pyInt 10) items
    else
      some []

/-- Loop of Filereader.read_file over the lines of the file: a line whose
prefix is the marker starts processing, a line whose prefix is the
closing brace-semicolon stops and returns, and in between each line is
processed and its values appended. -/
def readGo (startswith : List Char) :
    List (List Char) → Bool → List Int → Option (List Int)
  | [], _, out => some out
  | line :: rest, is_processing, out =>
    if startswith.isPrefixOf line then readGo startswith rest true out
    else if ['}', ';'].isPrefixOf line then some out
    else if is_processing then
      (process_line line).bind (fun vals => readGo startswith rest is_processing (out ++ vals))
    else
      readGo startswith rest is_processing out

/-- Default marker of Filereader.read_file: the string static const. -/
def defaultMarker : List Char :=
  ['s', 't', 'a', 't', 'i', 'c', ' ', 'c', 'o', 'n', 's', 't']

/-- Filereader.read_file on the list of lines of the file. -/
def read_file (lines : List (List Char))
    (startswith : List Char := defaultMarker) : Option (List Int) :=
  readGo startswith lines false []

end Filereader

namespace Converter

/-- Body of the loop of Converter.twos_complement for one sample:
current_sample - (max_value + 1) if current_sample > max_value else
abs(~current_sample) + max_value. -/
def twos_complement_elem (current_sample max_value : Int) : Int :=
  if current_sample > max_value then current_sample - (max_value + 1)
  else pyAbs (pyNot current_sample) + max_value

/-- Converter.twos_complement: the loop appends the remapped value of each
sample in order (default max_value is 0x7F). -/
def twos_complement (sample_data : List Int) (max_value : Int := 0x7F) : List Int :=
  match sample_data with
  | [] => []
  | x :: xs => twos_complement_elem x max_value :: twos_complement xs max_value

/-- Loop of Converter.reduce_samplerate: iterate over the samples keeping
the running index i and accumulator sample_sum; add the current sample,
and when i % ratio == 0 emit int(sample_sum / ratio) and reset the
accumulator.  Evaluating i % ratio with ratio == 0 raises
ZeroDivisionError, embedded as none. -/
def reduceGo (ratio : Int) : List Int → Nat → Int → Option (List Int)
  | [], _, _ => some []
  | x :: xs, i, sample_sum =>
    if ratio = 0 then none
    else
      let s := sample_sum + x
      if (i : Int) % ratio = 0 then
        (reduceGo ratio xs (i + 1) 0).map (fun out => Int.tdiv s ratio :: out)
      else
        reduceGo ratio xs (i + 1) s

/-- Converter.reduce_samplerate: run the loop from index 0 with
accumulator 0.0. -/
def reduce_samplerate (sample_data : List Int) (ratio : Int) : Option (List Int) :=
  reduceGo ratio sample_data 0 0

/-- Total mirror of the reduce_samplerate loop for a positive ratio,
returning the emitted list. -/
def chunkAux (r : Nat) : List Int → Nat → Int → List Int
  | [], _, _ => []
  | x :: xs, i, sample_sum =>
    let s := sample_sum + x
    if i % r = 0 then Int.tdiv s r :: chunkAux r xs (i + 1) 0
    else chunkAux r xs (i + 1) s

/-- Final value of the accumulator of the reduce_samplerate loop. -/
def chunkAcc (r : Nat) : List Int → Nat → Int → Int
  | [], _, sample_sum => sample_sum
  | x :: xs, i, sample_sum =>
    let s := sample_sum + x
    if i % r = 0 then chunkAcc r xs (i + 1) 0
    else chunkAcc r xs (i + 1) s

/-- Indices of the input at which the reduce_samplerate loop emits an
output element: the 0-based indices congruent to 0 modulo the ratio. -/
def emitIndices (n r : Nat) : List Nat :=
  (List.range n).filter (fun i => i % r = 0)

/-- Sum of the window of samples the accumulator holds at the emission
for index i: the samples at indices i + 1 - r through i (clamped at 0). -/
def winSum (l : List Int) (i r : Nat) : Int :=
  ((l.take (i + 1)).drop (i + 1 - r)).sum

/-- Spec-level description of reduce_samplerate for a positive ratio:
one output element per emission index, each the truncated quotient of the
window sum by the ratio. -/
def reduceSpec (l : List Int) (r : Nat) : List Int :=
  (emitIndices l.length r).map (fun i => Int.tdiv (winSum l i r) (r : Int))

/-- Index of the first sample that is still pending (accumulated after the
last emission, or everything if nothing was emitted) once the loop has
consumed n samples. -/
def pendStart (n r : Nat) : Nat :=
  if n = 0 then 0 else r * ((n - 1) / r) + 1

/-- Value of the accumulator of the reduce_samplerate loop after the whole
input has been consumed. -/
def pendSum (l : List Int) (r : Nat) : Int :=
  (l.drop (pendStart l.length r)).sum

end Converter

theorem pred_div_dvd {n r : Nat} (hn : 0 < n) (h : r ∣ n) :
    (n - 1) / r = n / r - 1 := by
  have h1 := Nat.succ_div (n - 1) r
  rw [Nat.sub_add_cancel hn, if_pos h] at h1
  rw [h1]
  simp

theorem pred_div_not_dvd {n r : Nat} (h : ¬ r ∣ n) :
    (n - 1) / r = n / r := by
  have hn : 0 < n := by
    rcases Nat.eq_zero_or_pos n with h0 | h0
    · exact absurd (h0 ▸ dvd_zero r) h
    · exact h0
  have h1 := Nat.succ_div (n - 1) r
  rw [Nat.sub_add_cancel hn, if_neg h] at h1
  rw [h1]
  simp

namespace Converter

theorem pendStart_emit {n r : Nat} (hr : 0 < r) (h : n % r = 0) :
    pendStart n r = n + 1 - r := by
  rcases Nat.eq_zero_or_pos n with hn | hn
  · subst hn; simp [pendStart]; omega
  · have hdvd : r ∣ n := Nat.dvd_of_mod_eq_zero h
    have hrn : r ≤ n := Nat.le_of_dvd hn hdvd
    have hq : 1 ≤ n / r := (Nat.one_le_div_iff hr).mpr hrn
    rw [pendStart, if_neg hn.ne', pred_div_dvd hn hdvd, Nat.mul_sub,
      Nat.mul_div_cancel' hdvd]
    omega

theorem pendStart_succ_emit {n r : Nat} (h : n % r = 0) :
    pendStart (n + 1) r = n + 1 := by
  have hdvd : r ∣ n := Nat.dvd_of_mod_eq_zero h
  rw [pendStart, if_neg (Nat.succ_ne_zero n), Nat.add_sub_cancel,
    Nat.mul_div_cancel' hdvd]

theorem pendStart_succ_noemit {n r : Nat} (h : n % r ≠ 0) :
    pendStart (n + 1) r = pendStart n r := by
  have hn : 0 < n := by
    rcases Nat.eq_zero_or_pos n with h0 | h0
    · subst h0; simp at h
    · exact h0
  have hdvd : ¬ r ∣ n := fun hd => absurd (Nat.mod_eq_zero_of_dvd hd) h
  rw [pendStart, if_neg (Nat.succ_ne_zero n), Nat.add_sub_cancel,
    pendStart, if_neg hn.ne', pred_div_not_dvd hdvd]

theorem pendStart_le {n r : Nat} (h : n % r ≠ 0) :
    pendStart n r ≤ n := by
  have hn : 0 < n := by
    rcases Nat.eq_zero_or_pos n with h0 | h0
    · subst h0; simp at h
    · exact h0
  have hdvd : ¬ r ∣ n := fun hd => absurd (Nat.mod_eq_zero_of_dvd hd) h
  have hd := Nat.div_add_mod n r
  have hm : 1 ≤ n % r := Nat.one_le_iff_ne_zero.mpr h
  rw [pendStart, if_neg hn.ne', pred_div_not_dvd hdvd]
  omega

end Converter

namespace Converter

theorem reduceGo_eq_chunkAux (r : Nat) (hr : 0 < r) :
    ∀ (xs : List Int) (i : Nat) (s : Int),
      reduceGo (r : Int) xs i s = some (chunkAux r xs i s) := by
  intro xs
  induction xs with
  | nil => intro i s; rfl
  | cons x xs ih =>
    intro i s
    have hr0 : (r : Int) ≠ 0 := by exact_mod_cast hr.ne'
    have hmod : ((i : Int) % (r : Int) = 0) ↔ (i % r = 0) := by omega
    by_cases hm : i % r = 0
    · simp [reduceGo, chunkAux, hr0, hmod, hm, ih]
    · simp [reduceGo, chunkAux, hr0, hmod, hm, ih]

theorem chunkAcc_append (r : Nat) :
    ∀ (ys : List Int) (x : Int) (i : Nat) (s : Int),
      chunkAcc r (ys ++ [x]) i s =
        if (i + ys.length) % r = 0 then 0 else chunkAcc r ys i s + x := by
  intro ys
  induction ys with
  | nil =>
    intro x i s
    by_cases hm : i % r = 0 <;> simp [chunkAcc, hm]
  | cons y ys ih =>
    intro x i s
    have hlen : i + 1 + ys.length = i + (ys.length + 1) := by omega
    by_cases hm : i % r = 0
    · simp only [List.cons_append, chunkAcc, hm, if_pos, List.length_cons,
        List.append_eq, ih, hlen]
    · simp only [List.cons_append, chunkAcc, hm, List.length_cons,
        List.append_eq, ih, hlen, if_false]

theorem chunkAux_append (r : Nat) :
    ∀ (ys : List Int) (x : Int) (i : Nat) (s : Int),
      chunkAux r (ys ++ [x]) i s =
        chunkAux r ys i s ++
          (if (i + ys.length) % r = 0 then
            [Int.tdiv (chunkAcc r ys i s + x) (r : Int)] else []) := by
  intro ys
  induction ys with
  | nil =>
    intro x i s
    by_cases hm : i % r = 0 <;> simp [chunkAux, chunkAcc, hm]
  | cons y ys ih =>
    intro x i s
    have hlen : i + 1 + ys.length = i + (ys.length + 1) := by omega
    by_cases hm : i % r = 0
    · simp only [List.cons_append, chunkAux, chunkAcc, hm, if_pos, List.length_cons,
        List.append_eq, ih, hlen, List.cons_append]
    · simp only [List.cons_append, chunkAux, chunkAcc, hm, List.length_cons,
        List.append_eq, ih, hlen, if_false]

theorem emitIndices_succ (n r : Nat) :
    emitIndices (n + 1) r =
      emitIndices n r ++ (if n % r = 0 then [n] else []) := by
  by_cases hm : n % r = 0 <;>
    simp [emitIndices, List.range_succ, List.filter_append, hm]

theorem winSum_append {l : List Int} {i : Nat} (x : Int) (r : Nat)
    (h : i < l.length) : winSum (l ++ [x]) i r = winSum l i r := by
  unfold winSum
  rw [List.take_append_of_le_length (by omega)]

theorem winSum_last (l : List Int) (x : Int) {r : Nat} (hr : 0 < r) :
    winSum (l ++ [x]) l.length r = (l.drop (l.length + 1 - r)).sum + x := by
  unfold winSum
  rw [List.take_of_length_le (by simp),
    List.drop_append_of_le_length (by omega), List.sum_append]
  simp

theorem chunk_eq_spec (r : Nat) (hr : 0 < r) (l : List Int) :
    chunkAux r l 0 0 = reduceSpec l r ∧ chunkAcc r l 0 0 = pendSum l r := by
  induction l using List.reverseRecOn with
  | nil => simp [chunkAux, chunkAcc, reduceSpec, emitIndices, pendSum, pendStart]
  | append_singleton l x ih =>
    obtain ⟨ih1, ih2⟩ := ih
    constructor
    · rw [chunkAux_append, ih1, ih2]
      simp only [Nat.zero_add]
      have hlen1 : (l ++ [x]).length = l.length + 1 := by simp
      have hrs : reduceSpec (l ++ [x]) r =
          (emitIndices l.length r).map
            (fun i => Int.tdiv (winSum (l ++ [x]) i r) (r : Int)) ++
          (if l.length % r = 0 then [l.length] else []).map
            (fun i => Int.tdiv (winSum (l ++ [x]) i r) (r : Int)) := by
        rw [reduceSpec, hlen1, emitIndices_succ, List.map_append]
      rw [hrs]
      have hmap : (emitIndices l.length r).map
            (fun i => Int.tdiv (winSum (l ++ [x]) i r) (r : Int)) =
          (emitIndices l.length r).map
            (fun i => Int.tdiv (winSum l i r) (r : Int)) := by
        apply List.map_congr_left
        intro i hi
        have hilt : i < l.length := by
          have := List.mem_filter.mp hi
          exact List.mem_range.mp this.1
        rw [winSum_append x r hilt]
      rw [hmap, reduceSpec]
      by_cases hm : l.length % r = 0
      · rw [if_pos hm, if_pos hm, List.map_singleton, winSum_last l x hr]
        have hps : pendSum l r = (l.drop (l.length + 1 - r)).sum := by
          rw [pendSum, pendStart_emit hr hm]
        rw [hps]
      · rw [if_neg hm, if_neg hm]
        rfl
    · rw [chunkAcc_append, ih2]
      simp only [Nat.zero_add]
      have hps : pendSum (l ++ [x]) r =
          ((l ++ [x]).drop (pendStart (l.length + 1) r)).sum := by
        rw [pendSum]
        simp
      rw [hps]
      by_cases hm : l.length % r = 0
      · rw [if_pos hm, pendStart_succ_emit hm, List.drop_eq_nil_of_le (by simp)]
        rfl
      · rw [if_neg hm, pendStart_succ_noemit hm,
          List.drop_append_of_le_length (pendStart_le hm), List.sum_append, pendSum]
        simp

theorem reduce_samplerate_spec {l : List Int} {r : Nat} (hr : 0 < r) :
    reduce_samplerate l (r : Int) = some (reduceSpec l r) := by
  rw [reduce_samplerate, reduceGo_eq_chunkAux r hr, (chunk_eq_spec r hr l).1]

theorem emitIndices_length_aux {r : Nat} (hr : 0 < r) (n : Nat) :
    (emitIndices n r).length = if n = 0 then 0 else (n - 1) / r + 1 := by
  induction n with
  | zero => simp [emitIndices]
  | succ n ih =>
    rw [emitIndices_succ, List.length_append, ih,
      if_neg (Nat.succ_ne_zero n), Nat.add_sub_cancel]
    by_cases hm : n % r = 0
    · rcases Nat.eq_zero_or_pos n with h0 | h0
      · subst h0; simp
      · have hdvd := Nat.dvd_of_mod_eq_zero hm
        have hq : 1 ≤ n / r := (Nat.one_le_div_iff hr).mpr (Nat.le_of_dvd h0 hdvd)
        rw [if_pos hm, if_neg h0.ne', pred_div_dvd h0 hdvd,
          Nat.sub_add_cancel hq]
        simp
    · have h0 : 0 < n := by
        rcases Nat.eq_zero_or_pos n with h0 | h0
        · subst h0; simp at hm
        · exact h0
      rw [if_neg hm, if_neg h0.ne',
        pred_div_not_dvd (fun hd => absurd (Nat.mod_eq_zero_of_dvd hd) hm)]
      simp

theorem emitIndices_length {r : Nat} (hr : 0 < r) (n : Nat) :
    (emitIndices n r).length = (n + r - 1) / r := by
  rw [emitIndices_length_aux hr n]
  rcases Nat.eq_zero_or_pos n with h0 | h0
  · subst h0
    have e : 0 + r - 1 = r - 1 := by omega
    rw [if_pos rfl, e, Nat.div_eq_of_lt (by omega)]
  · have e : n + r - 1 = (n - 1) + r := by omega
    rw [if_neg h0.ne', e, Nat.add_div_right _ hr]

theorem twos_complement_map (l : List Int) (m : Int) :
    twos_complement l m = l.map (fun v => twos_complement_elem v m) := by
  induction l with
  | nil => rfl
  | cons x xs ih => simp [twos_complement, ih]

end Converter

/-- C1: for every integer max_value at least 0 and every v in the range
from 0 to 2 * max_value + 1, the per-element remap of
Converter.twos_complement applied twice returns v: the remap is an
involution on that range, which is what the driver relies on when it
re-applies the remap before audio writeback. -/
theorem twos_complement_involution (max_value v : Int)
    (hm : 0 ≤ max_value) (h0 : 0 ≤ v) (h1 : v ≤ 2 * max_value + 1) :
    Converter.twos_complement_elem
      (Converter.twos_complement_elem v max_value) max_value = v := by
  unfold Converter.twos_complement_elem pyAbs pyNot
  split_ifs <;> omega

/-- Witness for C1 at max_value 127 and v 200. -/
theorem twos_complement_involution_witness :
    (0 : Int) ≤ 127 ∧ (0 : Int) ≤ 200 ∧ (200 : Int) ≤ 2 * 127 + 1 ∧
      Converter.twos_complement_elem
        (Converter.twos_complement_elem 200 127) 127 = 200 :=
  ⟨by decide, by decide, by decide,
    twos_complement_involution 127 200 (by decide) (by decide) (by decide)⟩

/-- C4 counterexample: the claim quantifies over every integer v, but at
v equal to minus 2 with the default max_value 127 the code returns
abs of the complement of v plus max_value, which is 128, not
v + max_value + 1 = 126. -/
theorem twos_complement_negative_counterexample :
    Converter.twos_complement_elem (-2) 127 = 128 ∧
      Converter.twos_complement_elem (-2) 127 ≠ (-2) + 127 + 1 := by
  constructor <;> decide

/-- C4 (amended): for every nonnegative integer v,
Converter.twos_complement maps v to v - max_value - 1 when v exceeds
max_value, and to v + max_value + 1 when v is at most max_value; the
negative inputs are the only ones where the claimed algebra fails. -/
theorem twos_complement_algebraic (v max_value : Int) (hv : 0 ≤ v) :
    (v > max_value →
      Converter.twos_complement_elem v max_value = v - max_value - 1) ∧
    (v ≤ max_value →
      Converter.twos_complement_elem v max_value = v + max_value + 1) := by
  unfold Converter.twos_complement_elem pyAbs pyNot
  constructor <;> intro h <;> split_ifs <;> omega

/-- Witness for C4 at v 200 and max_value 127. -/
theorem twos_complement_algebraic_witness :
    (0 : Int) ≤ 200 ∧ (200 : Int) > 127 ∧
      Converter.twos_complement_elem 200 127 = 200 - 127 - 1 :=
  ⟨by decide, by decide,
    (twos_complement_algebraic 200 127 (by decide)).1 (by decide)⟩

/-- C2: for a positive ratio, Converter.reduce_samplerate emits one
output element exactly at every 0-based index congruent to 0 modulo the
ratio, the element being the truncated quotient by the ratio of the
window of samples accumulated since the previous emission (reduceSpec);
the witness checks the instance input [1, 2, 3, 4, 5] with ratio 2. -/
theorem reduce_samplerate_emission_spec (l : List Int) (r : Nat) (hr : 0 < r) :
    Converter.reduce_samplerate l (r : Int) = some (Converter.reduceSpec l r) :=
  Converter.reduce_samplerate_spec hr

/-- Witness for C2: input [1, 2, 3, 4, 5] with ratio 2 yields [0, 2, 4]. -/
theorem reduce_samplerate_emission_spec_witness :
    (0 : Nat) < 2 ∧
      Converter.reduce_samplerate [1, 2, 3, 4, 5] ((2 : Nat) : Int) =
        some [0, 2, 4] :=
  ⟨by decide, by
    rw [reduce_samplerate_emission_spec [1, 2, 3, 4, 5] 2 (by decide)]
    decide⟩

/-- C3 counterexample: for input [1, 2, 3, 4, 5] and ratio 2 the output
is [0, 2, 4] of length 3, not floor of 5 / 2 = 2: the first emission
happens already at index 0, so the length is the ceiling, not the floor,
of n / r. -/
theorem reduce_samplerate_floor_length_counterexample :
    Converter.reduce_samplerate [1, 2, 3, 4, 5] 2 = some [0, 2, 4] ∧
      ([0, 2, 4] : List Int).length ≠ [1, 2, 3, 4, 5].length / 2 := by
  constructor <;> decide

/-- C3 (amended): for every input of length n and positive ratio r the
output of Converter.reduce_samplerate has length the ceiling of n / r,
that is (n + r - 1) / r: emissions happen at indices 0, r, 2r, ...
below n, so a trailing partial block after the last emission index is
dropped but the block ending at index 0 is always emitted. -/
theorem reduce_samplerate_ceil_length (l : List Int) (r : Nat) (hr : 0 < r) :
    ∃ out, Converter.reduce_samplerate l (r : Int) = some out ∧
      out.length = (l.length + r - 1) / r := by
  refine ⟨Converter.reduceSpec l r, Converter.reduce_samplerate_spec hr, ?_⟩
  rw [Converter.reduceSpec, List.length_map, Converter.emitIndices_length hr]

/-- Witness for C3 at input [1, 2, 3, 4, 5] and ratio 2. -/
theorem reduce_samplerate_ceil_length_witness :
    (0 : Nat) < 2 ∧
      ∃ out, Converter.reduce_samplerate [1, 2, 3, 4, 5] ((2 : Nat) : Int) =
          some out ∧
        out.length = (([1, 2, 3, 4, 5] : List Int).length + 2 - 1) / 2 :=
  ⟨by decide, reduce_samplerate_ceil_length [1, 2, 3, 4, 5] 2 (by decide)⟩

/-- C8 counterexample: with ratio minus 1 and input [1] the code raises
nothing and returns [-1]: there is no fail-fast validation for negative
ratios, the loop just runs with Python's modulo and division. -/
theorem reduce_samplerate_negative_ratio_counterexample :
    Converter.reduce_samplerate [1] (-1) = some [-1] ∧
      Converter.reduce_samplerate [1] (-1) ≠ none := by
  constructor <;> decide

/-- C8 (amended): the only failing non-positive ratio is 0, and only on a
nonempty input: the first loop iteration evaluates i modulo 0 and raises
ZeroDivisionError (none in the embedding) before any output is produced;
negative ratios and empty inputs produce a result without any error. -/
theorem reduce_samplerate_zero_ratio_error (l : List Int) (h : l ≠ []) :
    Converter.reduce_samplerate l 0 = none := by
  match l, h with
  | x :: xs, _ => simp [Converter.reduce_samplerate, Converter.reduceGo]

/-- Witness for C8 at input [1]. -/
theorem reduce_samplerate_zero_ratio_error_witness :
    ([1] : List Int) ≠ [] ∧ Converter.reduce_samplerate [1] 0 = none :=
  ⟨by decide, reduce_samplerate_zero_ratio_error [1] (by decide)⟩

/-- C9: no stage reorders elements: Converter.twos_complement is the
order-preserving elementwise map of its per-element remap, and for a
positive ratio Converter.reduce_samplerate produces exactly the block
results in input order: its output is the map of the window quotients
over the strictly increasing list of emission indices. -/
theorem pipeline_order_preserving :
    (∀ (l : List Int) (m : Int),
      Converter.twos_complement l m =
        l.map (fun v => Converter.twos_complement_elem v m)) ∧
    (∀ (l : List Int) (r : Nat), 0 < r →
      Converter.reduce_samplerate l (r : Int) =
          some (Converter.reduceSpec l r) ∧
        List.Pairwise (· < ·) (Converter.emitIndices l.length r)) := by
  constructor
  · exact Converter.twos_complement_map
  · intro l r hr
    refine ⟨Converter.reduce_samplerate_spec hr, ?_⟩
    exact List.Pairwise.filter _ (List.pairwise_lt_range _)

namespace Cli

/-- Destinations argparse declares for the program: after a successful
parse, vars(args) holds exactly these keys, each present whether or not
its flag was given on the command line (absent optional flags get the
value None).  Modelled from the argparse behavior the __main__ block
relies on. -/
def argsVars : List String :=
  ["p", "plt", "path", "dec", "cut", "ratio", "t", "wb", "sr"]

/-- Keys of vars(args) for an invocation, as a function of which of the
writeback flags were supplied: argparse keeps all destinations either
way, so the key list does not depend on them. -/
def varsKeys (_wb : Option String) (_sr : Option Int) : List String := argsVars

/-- The validation test of the __main__ block, line for line:
('wb' in vars(args)) and 'sr' not in vars(args). -/
def writebackGuard (wb : Option String) (sr : Option Int) : Bool :=
  (varsKeys wb sr).contains "wb" && !((varsKeys wb sr).contains "sr")

end Cli

/-- C6 is contradicted by the code: the membership tests of the guard ask
whether vars(args) has the keys at all, and argparse stores every
declared destination, so 'wb' in vars(args) is always true and
'sr' not in vars(args) is always false; the guard is false for every
invocation, parser.error is never called, and an invocation with the
writeback flag but no sample rate proceeds to read, transform and only
crash later inside the audio writer.  The code's own comment states the
intended validation, so this is a code bug. -/
theorem writeback_guard_never_fires (wb : Option String) (sr : Option Int) :
    Cli.writebackGuard wb sr = false := rfl

/-- Loop invariant for C7: while no line matches the marker the loop
stays out of processing mode and keeps its accumulated output. -/
theorem readGo_no_marker (sw : List Char) :
    ∀ (lines : List (List Char)) (out : List Int),
      (∀ line ∈ lines, sw.isPrefixOf line = false) →
      Filereader.readGo sw lines false out = some out := by
  intro lines
  induction lines with
  | nil => intro out _; rfl
  | cons line rest ih =>
    intro out h
    have h1 : sw.isPrefixOf line = false := h line (by simp)
    have hrest : ∀ l ∈ rest, sw.isPrefixOf l = false :=
      fun l hl => h l (by simp [hl])
    by_cases h2 : (['}', ';'] : List Char).isPrefixOf line <;>
      simp [Filereader.readGo, h1, h2, ih _ hrest]

/-- C7: for every input whose lines never start with the marker string,
Filereader.read_file returns the empty sequence and raises no error. -/
theorem read_file_no_marker (lines : List (List Char)) (sw : List Char)
    (h : ∀ line ∈ lines, sw.isPrefixOf line = false) :
    Filereader.read_file lines sw = some [] :=
  readGo_no_marker sw lines [] h

/-- Witness for C7 on a two-line file without the default marker. -/
theorem read_file_no_marker_witness :
    (∀ line ∈ [['i', 'n', 't'], ['4', '2', ';']],
      Filereader.defaultMarker.isPrefixOf line = false) ∧
      Filereader.read_file [['i', 'n', 't'], ['4', '2', ';']]
        Filereader.defaultMarker = some [] :=
  ⟨by decide, read_file_no_marker _ _ (by decide)⟩

/-- C10: a whitespace-only candidate line between marker and terminator
makes the extractor fail: stripping yields the empty string, splitting
yields one empty token, the trailing-empty-token rule drops it leaving
an empty item list, and the subsequent items[0] access raises IndexError
(none); Filereader.read_file propagates the error, so the extractor is
not total on inputs with blank data lines. -/
theorem read_file_blank_line_error :
    Filereader.process_line [' ', ' '] = none ∧
      Filereader.read_file
        [Filereader.defaultMarker, [' ', ' '], ['}', ';']]
        Filereader.defaultMarker = none := by
  constructor
  · rfl
  · rfl

/-- Witness for C9 on concrete inputs. -/
theorem pipeline_order_preserving_witness :
    Converter.twos_complement [200, 5] 127 = [72, 133] ∧
      Converter.reduce_samplerate [9] ((3 : Nat) : Int) =
        some (Converter.reduceSpec [9] 3) := by
  constructor
  · rw [pipeline_order_preserving.1 [200, 5] 127]
    decide
  · exact (pipeline_order_preserving.2 [9] 3 (by decide)).1

/-- Character facts about rendered digits: digit characters are not
whitespace, not commas and not signs. -/
theorem digitChar_facts (d : Nat) (hd : d < 16) :
    pySpace (digitChar d) = false ∧ digitChar d ≠ ',' ∧
      digitChar d ≠ '+' ∧ digitChar d ≠ '-' := by
  interval_cases d <;> decide

/-- A nonzero decimal digit renders to a character of the tuple checked
by the decimal branch, and never to the character 0. -/
theorem digitChar_start (d : Nat) (h1 : d ≠ 0) (hd : d < 10) :
    digitChar d ∈ Filereader.startDigits ∧ digitChar d ≠ '0' := by
  interval_cases d <;> first | exact absurd rfl h1 | decide

theorem dropWhile_eq_self_of (p : Char → Bool) (s : List Char)
    (h : ∀ c ∈ s, p c = false) : s.dropWhile p = s := by
  cases s with
  | nil => rfl
  | cons c cs =>
    rw [List.dropWhile_cons]
    simp [h c (by simp)]

/-- Stripping does nothing to a string without whitespace characters. -/
theorem pyStrip_eq_self (s : List Char) (h : ∀ c ∈ s, pySpace c = false) :
    pyStrip s = s := by
  have h1 : s.dropWhile pySpace = s := dropWhile_eq_self_of _ s h
  have h2 : s.reverse.dropWhile pySpace = s.reverse :=
    dropWhile_eq_self_of _ _ (fun c hc => h c (List.mem_reverse.mp hc))
  rw [pyStrip, h1, h2, List.reverse_reverse]

theorem splitOnChar_no_sep (sep : Char) :
    ∀ s : List Char, (∀ c ∈ s, c ≠ sep) → splitOnChar sep s = [s] := by
  intro s
  induction s with
  | nil => intro _; rfl
  | cons c cs ih =>
    intro h
    rw [splitOnChar, if_neg (h c (by simp)), ih (fun x hx => h x (by simp [hx]))]

theorem splitOnChar_sep_cons (sep : Char) (u : List Char) :
    splitOnChar sep (sep :: u) = [] :: splitOnChar sep u := by
  rw [splitOnChar, if_pos rfl]

theorem splitOnChar_append (sep : Char) :
    ∀ (t : List Char), (∀ c ∈ t, c ≠ sep) →
      ∀ (u h : List Char) (ts : List (List Char)),
        splitOnChar sep u = h :: ts →
        splitOnChar sep (t ++ u) = (t ++ h) :: ts := by
  intro t
  induction t with
  | nil => intro _ u h ts hu; simpa using hu
  | cons c t ih =>
    intro hc u h ts hu
    have h1 : c ≠ sep := hc c (by simp)
    have h2 := ih (fun x hx => hc x (by simp [hx])) u h ts hu
    rw [List.cons_append, splitOnChar, if_neg h1, h2]
    rfl

/-- Splitting on commas undoes joining with commas when no token holds a
comma. -/
theorem splitOnChar_joinComma :
    ∀ (toks : List (List Char)), toks ≠ [] →
      (∀ t ∈ toks, ∀ c ∈ t, c ≠ ',') →
      splitOnChar ',' (joinComma toks) = toks := by
  intro toks
  induction toks with
  | nil => intro h _; exact absurd rfl h
  | cons t ts ih =>
    intro _ hc
    cases ts with
    | nil => exact splitOnChar_no_sep ',' t (hc t (by simp))
    | cons t' ts' =>
      have hrec := ih (by simp) (fun x hx c hcx => hc x (by simp [hx]) c hcx)
      have hj : joinComma (t :: t' :: ts') = t ++ ',' :: joinComma (t' :: ts') := rfl
      have hsep := splitOnChar_sep_cons ',' (joinComma (t' :: ts'))
      rw [hj, splitOnChar_append ',' t (hc t (by simp)) _ _ _ hsep, hrec]
      simp

theorem digitVal_digitChar_10 (d : Nat) (hd : d < 10) :
    digitVal 10 (digitChar d) = some d := by
  interval_cases d <;> decide

theorem digitVal_digitChar_16 (d : Nat) (hd : d < 16) :
    digitVal 16 (digitChar d) = some d := by
  interval_cases d <;> decide

/-- Folding the digit accumulator over rendered digit characters succeeds
and computes the straight base-b fold of the digit values. -/
theorem parseDigits_map (b : Nat)
    (hdv : ∀ d, d < b → digitVal b (digitChar d) = some d) :
    ∀ (ds : List Nat) (acc : Nat), (∀ d ∈ ds, d < b) →
      (ds.map digitChar).foldlM
        (fun acc c => (digitVal b c).map (fun d => acc * b + d)) acc =
      some (ds.foldl (fun a d => a * b + d) acc) := by
  intro ds
  induction ds with
  | nil => intro acc _; rfl
  | cons d ds ih =>
    intro acc h
    have hd : d < b := h d (by simp)
    simp only [List.map_cons, List.foldlM_cons, hdv d hd, Option.map_some',
      Option.some_bind, List.foldl_cons]
    exact ih (acc * b + d) (fun x hx => h x (by simp [hx]))

/-- The big-endian fold of the little-endian digit list recovers the
number (with the accumulator scaled by the base power). -/
theorem foldl_digits_reverse (b : Nat) :
    ∀ (ds : List Nat) (acc : Nat),
      ds.reverse.foldl (fun a d => a * b + d) acc =
        acc * b ^ ds.length + Nat.ofDigits b ds := by
  intro ds
  induction ds with
  | nil => intro acc; simp
  | cons d ds ih =>
    intro acc
    rw [List.reverse_cons, List.foldl_append, ih]
    simp only [List.foldl_cons, List.foldl_nil, Nat.ofDigits_cons, List.length_cons]
    ring

theorem parseDigits_natToChars {b : Nat} (hb : b = 10 ∨ b = 16) (n : Nat) :
    parseDigits b (natToChars b n) = some n := by
  have hdv : ∀ d, d < b → digitVal b (digitChar d) = some d := by
    rcases hb with rfl | rfl
    · exact digitVal_digitChar_10
    · exact digitVal_digitChar_16
  have hb1 : 1 < b := by rcases hb with rfl | rfl <;> decide
  by_cases hn : n = 0
  · subst hn
    rcases hb with rfl | rfl <;> decide
  · rw [natToChars, if_neg hn, parseDigits,
      parseDigits_map b hdv (Nat.digits b n).reverse 0
        (fun d hd => Nat.digits_lt_base hb1 (List.mem_reverse.mp hd)),
      foldl_digits_reverse b (Nat.digits b n) 0, Nat.ofDigits_digits]
    simp

theorem natToChars_ne_nil (b n : Nat) : natToChars b n ≠ [] := by
  rw [natToChars]
  by_cases hn : n = 0
  · simp [hn]
  · simp [hn, Nat.digits_ne_nil_iff_ne_zero]

/-- Every character of a rendered number is a digit character of a value
below 16 (for base 10 or 16). -/
theorem natToChars_chars {b : Nat} (hb1 : 1 < b) (hb2 : b ≤ 16) (n : Nat) :
    ∀ c ∈ natToChars b n, ∃ d, d < 16 ∧ c = digitChar d := by
  intro c hc
  rw [natToChars] at hc
  by_cases hn : n = 0
  · rw [if_pos hn] at hc
    simp at hc
    exact ⟨0, by omega, by rw [hc]; decide⟩
  · rw [if_neg hn] at hc
    simp only [List.mem_map, List.mem_reverse] at hc
    obtain ⟨d, hd, rfl⟩ := hc
    exact ⟨d, lt_of_lt_of_le (Nat.digits_lt_base hb1 hd) hb2, rfl⟩

theorem natToChars_clean {b : Nat} (hb1 : 1 < b) (hb2 : b ≤ 16) (n : Nat) :
    ∀ c ∈ natToChars b n,
      pySpace c = false ∧ c ≠ ',' ∧ c ≠ '+' ∧ c ≠ '-' := by
  intro c hc
  obtain ⟨d, hd, rfl⟩ := natToChars_chars hb1 hb2 n c hc
  exact digitChar_facts d hd

/-- A rendered number starts with a digit character that is nonzero when
the number is. -/
theorem natToChars_shape {b : Nat} (hb1 : 1 < b) (n : Nat) :
    ∃ d rest, d < b ∧ (n ≠ 0 → d ≠ 0) ∧
      natToChars b n = digitChar d :: rest := by
  by_cases hn : n = 0
  · refine ⟨0, [], by omega, fun h => absurd hn h, ?_⟩
    rw [natToChars, if_pos hn]
    decide
  · have hne : Nat.digits b n ≠ [] := Nat.digits_ne_nil_iff_ne_zero.mpr hn
    have hlast : (Nat.digits b n).getLast? =
        some ((Nat.digits b n).getLast hne) :=
      List.getLast?_eq_getLast _ hne
    have hrev : ∃ tl, (Nat.digits b n).reverse =
        (Nat.digits b n).getLast hne :: tl := by
      cases hr : (Nat.digits b n).reverse with
      | nil => rw [List.reverse_eq_nil_iff] at hr; exact absurd hr hne
      | cons a tl =>
        have hh : (Nat.digits b n).reverse.head? = some a := by rw [hr]; rfl
        rw [List.head?_reverse, hlast] at hh
        injection hh with hh
        exact ⟨tl, by rw [hh]⟩
    obtain ⟨tl, htl⟩ := hrev
    refine ⟨(Nat.digits b n).getLast hne, tl.map digitChar,
      Nat.digits_lt_base hb1 (List.getLast_mem hne),
      fun _ => Nat.getLast_digit_ne_zero b hn, ?_⟩
    rw [natToChars, if_neg hn, htl, List.map_cons]

theorem pyParseNat_cons (b : Nat) (c : Char) (cs : List Char) :
    pyParseNat b (c :: cs) = parseDigits b (c :: cs) := rfl

theorem stripHexPre_0x (rest : List Char) :
    stripHexPre ('0' :: 'x' :: rest) = rest := rfl

theorem pyParseNatTok_natToChars_10 (n : Nat) :
    pyParseNatTok 10 (natToChars 10 n) = some n := by
  rw [pyParseNatTok, if_neg (by decide : ¬ (10 = 16))]
  obtain ⟨d, rest, _, _, hshape⟩ := natToChars_shape (by decide : (1:Nat) < 10) n
  rw [hshape, pyParseNat_cons, ← hshape]
  exact parseDigits_natToChars (Or.inl rfl) n

theorem pyParseNatTok_hex (n : Nat) :
    pyParseNatTok 16 ('0' :: 'x' :: natToChars 16 n) = some n := by
  rw [pyParseNatTok, if_pos rfl, stripHexPre_0x]
  obtain ⟨d, rest, _, _, hshape⟩ := natToChars_shape (by decide : (1:Nat) < 16) n
  rw [hshape, pyParseNat_cons, ← hshape]
  exact parseDigits_natToChars (Or.inr rfl) n

/-- On a whitespace-free token that does not start with a sign character,
Python int falls through to the plain digit parse. -/
theorem pyInt_no_sign (b : Nat) (s : List Char)
    (hs : ∀ c ∈ s, pySpace c = false)
    (hp : s.head? ≠ some '+') (hm' : s.head? ≠ some '-') :
    pyInt b s = (pyParseNatTok b s).map (fun k => (k : Int)) := by
  unfold pyInt
  rw [pyStrip_eq_self s hs]
  split
  · simp at hp
  · simp at hm'
  · rfl

theorem pyInt_natToChars_10 (n : Nat) :
    pyInt 10 (natToChars 10 n) = some (n : Int) := by
  obtain ⟨d, rest, hd, _, hshape⟩ := natToChars_shape (by decide : (1:Nat) < 10) n
  have hfacts := digitChar_facts d (by omega)
  rw [pyInt_no_sign 10 _
      (fun c hc => (natToChars_clean (by decide) (by decide) n c hc).1)
      (by rw [hshape]; simp [hfacts.2.2.1])
      (by rw [hshape]; simp [hfacts.2.2.2]),
    pyParseNatTok_natToChars_10]
  rfl

theorem pyInt_hex_token (n : Nat) :
    pyInt 16 ('0' :: 'x' :: natToChars 16 n) = some (n : Int) := by
  have hclean : ∀ c ∈ ('0' :: 'x' :: natToChars 16 n), pySpace c = false := by
    intro c hc
    rcases List.mem_cons.mp hc with rfl | hc
    · decide
    rcases List.mem_cons.mp hc with rfl | hc
    · decide
    · exact (natToChars_clean (by decide) (by decide) n c hc).1
  rw [pyInt_no_sign 16 _ hclean
      (by rw [List.head?_cons]; decide) (by rw [List.head?_cons]; decide),
    pyParseNatTok_hex]
  rfl

theorem collectInts_pyInt_10 (ns : List Nat) :
    collectInts (pyInt 10) (ns.map (natToChars 10)) =
      some (ns.map (fun k => Int.ofNat k)) := by
  induction ns with
  | nil => rfl
  | cons n ns ih =>
    simp [collectInts, pyInt_natToChars_10 n, ih]

theorem collectInts_pyInt_16 (ns : List Nat) :
    collectInts (pyInt 16) (ns.map (fun n => '0' :: 'x' :: natToChars 16 n)) =
      some (ns.map (fun k => Int.ofNat k)) := by
  induction ns with
  | nil => rfl
  | cons n ns ih =>
    simp [collectInts, pyInt_hex_token n, ih]

theorem isPrefixOf_0x_cons_false (c : Char) (cs : List Char) (hc : c ≠ '0') :
    (['0', 'x'] : List Char).isPrefixOf (c :: cs) = false := by
  simp [List.isPrefixOf]
  intro h
  exact absurd h.symm hc

theorem isPrefixOf_0x_cons_true (rest : List Char) :
    (['0', 'x'] : List Char).isPrefixOf ('0' :: 'x' :: rest) = true := by
  simp [List.isPrefixOf]

theorem joinComma_chars :
    ∀ (toks : List (List Char)) (c : Char), c ∈ joinComma toks →
      c = ',' ∨ ∃ t ∈ toks, c ∈ t := by
  intro toks
  induction toks with
  | nil => intro c hc; simp [joinComma] at hc
  | cons t ts ih =>
    intro c hc
    cases ts with
    | nil =>
      right
      exact ⟨t, by simp, by simpa [joinComma] using hc⟩
    | cons t' ts' =>
      have hj : joinComma (t :: t' :: ts') = t ++ ',' :: joinComma (t' :: ts') := rfl
      rw [hj] at hc
      rcases List.mem_append.mp hc with h | h
      · exact Or.inr ⟨t, by simp, h⟩
      · rcases List.mem_cons.mp h with rfl | h
        · exact Or.inl rfl
        · rcases ih c h with h1 | ⟨u, hu, hcu⟩
          · exact Or.inl h1
          · exact Or.inr ⟨u, List.mem_cons_of_mem t hu, hcu⟩

/-- Evaluation of the extractor on a joined token line whose tokens hold
no commas, no whitespace and are nonempty: stripping and splitting
recover the tokens, the trailing-empty-token rule does not fire, and the
branch is decided by the first token. -/
theorem process_line_tokens (first : List Char) (others : List (List Char))
    (hnc : ∀ t ∈ first :: others, ∀ c ∈ t, c ≠ ',')
    (hns : ∀ t ∈ first :: others, ∀ c ∈ t, pySpace c = false)
    (hnn : ∀ t ∈ first :: others, t ≠ []) :
    Filereader.process_line (joinComma (first :: others)) =
      (if (['0', 'x'] : List Char).isPrefixOf first then
        collectInts (pyInt 16) (first :: others)
      else if (match first with
          | c :: _ => decide (c ∈ Filereader.startDigits)
          | [] => false) then
        collectInts (pyInt 10) (first :: others)
      else some []) := by
  have hstrip : pyStrip (joinComma (first :: others)) =
      joinComma (first :: others) := by
    apply pyStrip_eq_self
    intro c hc
    rcases joinComma_chars _ c hc with rfl | ⟨t, ht, hct⟩
    · decide
    · exact hns t ht c hct
  have hsplit : splitOnChar ',' (joinComma (first :: others)) = first :: others :=
    splitOnChar_joinComma _ (by simp) hnc
  have hlastne : (first :: others).getLast? ≠ some [] := by
    have hld := List.getLast?_eq_getLast (first :: others) (by simp)
    rw [hld]
    intro hcon
    injection hcon with hcon
    exact hnn _ (List.getLast_mem _) hcon
  simp only [Filereader.process_line]
  rw [hstrip, hsplit, if_neg hlastne]

/-- The extractor on the decimal rendering of a sequence whose first
value is nonzero parses every token as base 10 and returns the values. -/
theorem process_line_decLine (n : Nat) (ns : List Nat) (hn : n ≠ 0) :
    Filereader.process_line (decLine (n :: ns)) =
      some ((n :: ns).map (fun k => Int.ofNat k)) := by
  obtain ⟨d, rest, hd, hdz, hshape⟩ :=
    natToChars_shape (by decide : (1:Nat) < 10) n
  have hstart := digitChar_start d (hdz hn) hd
  have hmem : ∀ t ∈ natToChars 10 n :: List.map (natToChars 10) ns,
      ∃ k, t = natToChars 10 k := by
    intro t ht
    rcases List.mem_cons.mp ht with rfl | ht
    · exact ⟨n, rfl⟩
    · obtain ⟨k, _, rfl⟩ := List.mem_map.mp ht
      exact ⟨k, rfl⟩
  have hnc : ∀ t ∈ natToChars 10 n :: List.map (natToChars 10) ns,
      ∀ c ∈ t, c ≠ ',' := by
    intro t ht c hc
    obtain ⟨k, rfl⟩ := hmem t ht
    exact (natToChars_clean (by decide) (by decide) k c hc).2.1
  have hns' : ∀ t ∈ natToChars 10 n :: List.map (natToChars 10) ns,
      ∀ c ∈ t, pySpace c = false := by
    intro t ht c hc
    obtain ⟨k, rfl⟩ := hmem t ht
    exact (natToChars_clean (by decide) (by decide) k c hc).1
  have hnn : ∀ t ∈ natToChars 10 n :: List.map (natToChars 10) ns, t ≠ [] := by
    intro t ht
    obtain ⟨k, rfl⟩ := hmem t ht
    exact natToChars_ne_nil 10 k
  have hhex : (['0', 'x'] : List Char).isPrefixOf (natToChars 10 n) = false := by
    rw [hshape]
    exact isPrefixOf_0x_cons_false _ _ hstart.2
  have hdec : (match natToChars 10 n with
      | c :: _ => decide (c ∈ Filereader.startDigits)
      | [] => false) = true := by
    rw [hshape]
    exact decide_eq_true hstart.1
  rw [decLine, List.map_cons, process_line_tokens _ _ hnc hns' hnn, hhex, hdec]
  simp only [Bool.false_eq_true, if_false, if_true, List.map_cons]
  have hc10 := collectInts_pyInt_10 (n :: ns)
  simp only [List.map_cons] at hc10
  exact hc10

/-- The extractor on the hex rendering of any sequence parses every token
as base 16 and returns the values. -/
theorem process_line_hexLine (m : Nat) (ms : List Nat) :
    Filereader.process_line (hexLine (m :: ms)) =
      some ((m :: ms).map (fun k => Int.ofNat k)) := by
  have hmem : ∀ t ∈ ('0' :: 'x' :: natToChars 16 m) ::
      List.map (fun n => '0' :: 'x' :: natToChars 16 n) ms,
      ∃ k, t = '0' :: 'x' :: natToChars 16 k := by
    intro t ht
    rcases List.mem_cons.mp ht with rfl | ht
    · exact ⟨m, rfl⟩
    · obtain ⟨k, _, rfl⟩ := List.mem_map.mp ht
      exact ⟨k, rfl⟩
  have hclean : ∀ (k : Nat) (c : Char), c ∈ ('0' :: 'x' :: natToChars 16 k) →
      pySpace c = false ∧ c ≠ ',' := by
    intro k c hc
    rcases List.mem_cons.mp hc with rfl | hc
    · exact ⟨by decide, by decide⟩
    rcases List.mem_cons.mp hc with rfl | hc
    · exact ⟨by decide, by decide⟩
    · have h := natToChars_clean (by decide) (by decide) k c hc
      exact ⟨h.1, h.2.1⟩
  have hnc : ∀ t ∈ ('0' :: 'x' :: natToChars 16 m) ::
      List.map (fun n => '0' :: 'x' :: natToChars 16 n) ms,
      ∀ c ∈ t, c ≠ ',' := by
    intro t ht c hc
    obtain ⟨k, rfl⟩ := hmem t ht
    exact (hclean k c hc).2
  have hns' : ∀ t ∈ ('0' :: 'x' :: natToChars 16 m) ::
      List.map (fun n => '0' :: 'x' :: natToChars 16 n) ms,
      ∀ c ∈ t, pySpace c = false := by
    intro t ht c hc
    obtain ⟨k, rfl⟩ := hmem t ht
    exact (hclean k c hc).1
  have hnn : ∀ t ∈ ('0' :: 'x' :: natToChars 16 m) ::
      List.map (fun n => '0' :: 'x' :: natToChars 16 n) ms, t ≠ [] := by
    intro t ht
    obtain ⟨k, rfl⟩ := hmem t ht
    simp
  rw [hexLine, List.map_cons, process_line_tokens _ _ hnc hns' hnn,
    isPrefixOf_0x_cons_true]
  simp only [if_true, List.map_cons]
  have hc16 := collectInts_pyInt_16 (m :: ms)
  simp only [List.map_cons] at hc16
  exact hc16

/-- C5 counterexample: the decimal line 0,1 has a first token that begins
with the decimal digit 0, yet the extractor returns no values at all,
because the decimal branch only tests the digits 1 through 9; the hex
rendering 0x0,0x1 of the same sequence parses to [0, 1], so hex and
decimal forms of the same sequence are not extracted identically. -/
theorem process_line_zero_token_counterexample :
    Filereader.process_line ['0', ',', '1'] = some [] ∧
      Filereader.process_line ['0', 'x', '0', ',', '0', 'x', '1'] =
        some [0, 1] ∧
      some ([] : List Int) ≠ some [(0 : Int), 1] := by
  refine ⟨rfl, rfl, by decide⟩

/-- C5 (amended): for every candidate data line rendering a numeric
sequence whose first value is nonzero (so its first decimal token begins
with a digit 1 through 9), the extractor parses every token of the
decimal form as base 10 and yields the sequence, and the hex-literal form
of the same sequence extracts to the identical integer sequence; when the
first value is 0 the decimal line is skipped entirely while the hex line
still parses, so the restriction is necessary. -/
theorem process_line_hex_dec_consistency (n : Nat) (ns : List Nat)
    (hn : n ≠ 0) :
    Filereader.process_line (decLine (n :: ns)) =
        some ((n :: ns).map (fun k => Int.ofNat k)) ∧
      Filereader.process_line (hexLine (n :: ns)) =
        Filereader.process_line (decLine (n :: ns)) := by
  have h1 := process_line_decLine n ns hn
  have h2 := process_line_hexLine n ns
  exact ⟨h1, by rw [h1, h2]⟩

/-- Witness for C5 on the sequence 1, 0, 255. -/
theorem process_line_hex_dec_consistency_witness :
    (1 : Nat) ≠ 0 ∧
      (Filereader.process_line (decLine [1, 0, 255]) =
          some ([1, 0, 255].map (fun k => Int.ofNat k)) ∧
        Filereader.process_line (hexLine [1, 0, 255]) =
          Filereader.process_line (decLine [1, 0, 255])) :=
  ⟨by decide, process_line_hex_dec_consistency 1 [0, 255] (by decide)⟩
